import Mathlib

/-
Verification of the position-list range engine of the `cutr` tool
(`src/ch08_cut/cutr/src/mylib.rs` and `src/ch08_cut/cutr/src/mylib_2.rs`).

Modelling conventions:
* Rust `&str` values are modelled as `List Char` (the character sequence) or,
  where the code operates on the raw UTF-8 bytes, as `List Nat` (byte values).
* Rust `usize` is modelled as `Nat`; overflow of machine integers is out of
  scope for the properties considered here.
* `Result<T, Box<dyn Error>>` is modelled as `Except String T`; every error
  constructed by the verified functions carries a message `String`.
* `Range<usize>` is modelled as `Nat × Nat` (start, end).
-/

/-- First-split helper: `splitFirst c t` returns `some (a, b)` when
`t = a ++ c :: b` and `c` does not occur in `a`; `none` when `c ∉ t`. -/
def splitFirst (c : Char) : List Char → Option (List Char × List Char)
  | [] => none
  | x :: xs =>
    if x = c then some ([], xs)
    else
      match splitFirst c xs with
      | some (a, b) => some (x :: a, b)
      | none => none

/-- Accumulator form of Rust's `str::split`, structural so the kernel can
evaluate it. -/
def splitAllAux (c : Char) : List Char → List Char → List (List Char)
  | [], acc => [acc.reverse]
  | x :: xs, acc =>
    if x = c then acc.reverse :: splitAllAux c xs []
    else splitAllAux c xs (x :: acc)

/-- Model of Rust's `str::split(c)`: the list of chunks between occurrences of
the separator `c` (`"".split(c)` yields one empty chunk, like in Rust). -/
def splitAll (c : Char) (t : List Char) : List (List Char) := splitAllAux c t []

/-- ASCII decimal digit test, as used by Rust's integer `FromStr`. -/
def isDigitCh (c : Char) : Bool := 48 ≤ c.toNat && c.toNat ≤ 57

/-- Value of a big-endian ASCII digit string. -/
def digitsVal (t : List Char) : Nat := t.foldl (fun a c => 10 * a + (c.toNat - 48)) 0

/-- Model of Rust's `usize::from_str`: an optional leading `'+'` followed by a
nonempty run of ASCII digits. -/
def rustParseUsize (t : List Char) : Option Nat :=
  if t.head? = some '+' then
    if !t.tail.isEmpty && t.tail.all isDigitCh then some (digitsVal t.tail) else none
  else if !t.isEmpty && t.all isDigitCh then some (digitsVal t) else none

/-- Model of Rust's `NonZeroUsize::from_str`: like `usize::from_str` but a
parsed value of zero is an error. -/
def rustParseNonZeroUsize (t : List Char) : Option Nat :=
  match rustParseUsize t with
  | some 0 => none
  | some n => some n
  | none => none

/-- Fuel-driven digit renderer (big-endian), kernel-evaluable. -/
def natDigitsAux : Nat → Nat → List Char
  | 0, _ => []
  | _ + 1, 0 => []
  | fuel + 1, n + 1 =>
    natDigitsAux fuel ((n + 1) / 10) ++ [Nat.digitChar ((n + 1) % 10)]

/-- Decimal rendering of a `Nat`, modelling Rust's `Display` for `usize`. -/
def natRepr (n : Nat) : List Char := if n = 0 then ['0'] else natDigitsAux n n

example : splitAll ',' "1,7,3-5".data = [['1'], ['7'], ['3', '-', '5']] := by decide
example : rustParseUsize "007".data = some 7 := by decide
example : rustParseNonZeroUsize "0".data = none := by decide
example : natRepr 105 = ['1', '0', '5'] := by decide
example : splitFirst '-' "3-5".data = some (['3'], ['5']) := by decide

/-- Continuation byte test (`0x80 ≤ b ≤ 0xBF`). -/
def isCont (b : Nat) : Bool := 0x80 ≤ b && b ≤ 0xBF

/-- Valid first-continuation ranges for a three-byte lead, per the UTF-8
validation table used by Rust's `core::str` (`0xE0` needs `A0..BF`, `0xED`
needs `80..9F`, the rest need `80..BF`). -/
def cont1ok3 (b c1 : Nat) : Bool :=
  if b = 0xE0 then 0xA0 ≤ c1 && c1 ≤ 0xBF
  else if b = 0xED then 0x80 ≤ c1 && c1 ≤ 0x9F
  else isCont c1

/-- Valid first-continuation ranges for a four-byte lead (`0xF0` needs
`90..BF`, `0xF4` needs `80..8F`, the rest need `80..BF`). -/
def cont1ok4 (b c1 : Nat) : Bool :=
  if b = 0xF0 then 0x90 ≤ c1 && c1 ≤ 0xBF
  else if b = 0xF4 then 0x80 ≤ c1 && c1 ≤ 0x8F
  else isCont c1

/-- Model of Rust's `String::from_utf8_lossy`, producing the list of decoded
Unicode scalar values. Each maximal invalid prefix is replaced by one
U+FFFD replacement character ("substitution of maximal subparts"), resuming
at the first byte that broke the sequence. -/
def utf8Lossy : List Nat → List Nat
  | [] => []
  | b :: rest =>
    if b ≤ 0x7F then b :: utf8Lossy rest
    else if 0xC2 ≤ b && b ≤ 0xDF then
      match rest with
      | [] => [0xFFFD]
      | c1 :: r1 =>
        if isCont c1 then ((b - 0xC0) * 0x40 + (c1 - 0x80)) :: utf8Lossy r1
        else 0xFFFD :: utf8Lossy (c1 :: r1)
    else if 0xE0 ≤ b && b ≤ 0xEF then
      match rest with
      | [] => [0xFFFD]
      | c1 :: r1 =>
        if cont1ok3 b c1 then
          match r1 with
          | [] => [0xFFFD]
          | c2 :: r2 =>
            if isCont c2 then
              ((b - 0xE0) * 0x1000 + (c1 - 0x80) * 0x40 + (c2 - 0x80)) :: utf8Lossy r2
            else 0xFFFD :: utf8Lossy (c2 :: r2)
        else 0xFFFD :: utf8Lossy (c1 :: r1)
    else if 0xF0 ≤ b && b ≤ 0xF4 then
      match rest with
      | [] => [0xFFFD]
      | c1 :: r1 =>
        if cont1ok4 b c1 then
          match r1 with
          | [] => [0xFFFD]
          | c2 :: r2 =>
            if isCont c2 then
              match r2 with
              | [] => [0xFFFD]
              | c3 :: r3 =>
                if isCont c3 then
                  ((b - 0xF0) * 0x40000 + (c1 - 0x80) * 0x1000
                      + (c2 - 0x80) * 0x40 + (c3 - 0x80)) :: utf8Lossy r3
                else 0xFFFD :: utf8Lossy (c3 :: r3)
            else 0xFFFD :: utf8Lossy (c2 :: r2)
        else 0xFFFD :: utf8Lossy (c1 :: r1)
    else 0xFFFD :: utf8Lossy rest

/-- UTF-8 encoding of one Unicode scalar value. -/
def utf8EncodeChar (n : Nat) : List Nat :=
  if n < 0x80 then [n]
  else if n < 0x800 then [0xC0 + n / 0x40, 0x80 + n % 0x40]
  else if n < 0x10000 then
    [0xE0 + n / 0x1000, 0x80 + (n / 0x40) % 0x40, 0x80 + n % 0x40]
  else
    [0xF0 + n / 0x40000, 0x80 + (n / 0x1000) % 0x40,
      0x80 + (n / 0x40) % 0x40, 0x80 + n % 0x40]

/-- The UTF-8 byte sequence of a string (Rust's `str::as_bytes`). -/
def strBytes (s : String) : List Nat := s.data.flatMap (fun c => utf8EncodeChar c.toNat)

/-- The Unicode scalar values of a string. -/
def strCodes (s : String) : List Nat := s.data.map Char.toNat

example : strBytes "ábc" = [0xC3, 0xA1, 0x62, 0x63] := by decide
example : utf8Lossy [0xC3, 0xA1] = strCodes "á" := by decide
example : utf8Lossy [0xC3] = [0xFFFD] := by decide
example : utf8Lossy [0xC3, 0xA1, 0x62] = strCodes "áb" := by decide

/-- The index list `[s, s+1, ..., s+n-1]`. -/
def idxRange : Nat → Nat → List Nat
  | _, 0 => []
  | s, n + 1 => s :: idxRange (s + 1) n

/-- Model of Rust's `Iterator::enumerate` starting at index `i`. -/
def enumerateFrom : Nat → List α → List (Nat × α)
  | _, [] => []
  | i, x :: t => (i, x) :: enumerateFrom (i + 1) t

/-- Forget the error message of a `Result`, keeping only the success value. -/
def exOpt : Except String α → Option α
  | .ok a => some a
  | .error _ => none

/-- Model of Rust's `collect::<Result<Vec<_>, _>>()` over a mapped token
list: fail fast with the first error, otherwise collect all results in
order. -/
def traverseTokens (f : List Char → Except String (Nat × Nat)) :
    List (List Char) → Except String (List (Nat × Nat))
  | [] => .ok []
  | t :: ts =>
    match f t with
    | .error e => .error e
    | .ok r =>
      match traverseTokens f ts with
      | .error e => .error e
      | .ok rs => .ok (r :: rs)

namespace mylib_2

/-- The `value_error` closure of `parse_index` in `mylib_2.rs`. -/
def value_error (input : List Char) : String :=
  "illegal list value: \"" ++ String.mk input ++ "\""

/-- Embedding of `parse_index` in `mylib_2.rs`: reject a leading `'+'`, then
parse as `NonZeroUsize` and subtract one. -/
def parse_index (input : List Char) : Except String Nat :=
  if input.head? = some '+' then .error (value_error input)
  else
    match rustParseNonZeroUsize input with
    | some n => .ok (n - 1)
    | none => .error (value_error input)

/-- Captures of the regex `^(\d+)-(\d+)$` of `parse_pos` in `mylib_2.rs`:
the token must consist of a nonempty digit run, a dash, and a nonempty digit
run. Splitting at the first dash is equivalent, because the part before the
first dash is exactly the maximal first digit run and the part after it may
not contain a dash (a dash is not a digit). The regex crate's `\d` matches
any Unicode decimal digit while `isDigitCh` is ASCII-only; the difference
never affects success, because `parse_index` (Rust integer parsing) rejects
every non-ASCII digit that `\d` would admit. -/
def range_re_captures (t : List Char) : Option (List Char × List Char) :=
  match splitFirst '-' t with
  | some (a, b) =>
    if !a.isEmpty && !b.isEmpty && a.all isDigitCh && b.all isDigitCh then some (a, b)
    else none
  | none => none

/-- Embedding of the per-token closure of `parse_pos` in `mylib_2.rs`:
first try the token as a single index, otherwise match it against
`^(\d+)-(\d+)$` (keeping the single-index error when the regex fails). -/
def parse_pos_token (val : List Char) : Except String (Nat × Nat) :=
  match parse_index val with
  | .ok n => .ok (n, n + 1)
  | .error e =>
    match range_re_captures val with
    | none => .error e
    | some (c1, c2) =>
      match parse_index c1 with
      | .error e1 => .error e1
      | .ok n1 =>
        match parse_index c2 with
        | .error e2 => .error e2
        | .ok n2 =>
          if n1 ≥ n2 then
            .error ("First number in range (" ++ String.mk (natRepr (n1 + 1))
              ++ ") must be lower than second number ("
              ++ String.mk (natRepr (n2 + 1)) ++ ")")
          else .ok (n1, n2 + 1)

/-- Embedding of `parse_pos` in `mylib_2.rs`: split on commas and collect the
per-token results, failing fast on the first bad token. -/
def parse_pos (range : String) : Except String (List (Nat × Nat)) :=
  traverseTokens parse_pos_token (splitAll ',' range.data)

/-- Embedding of `extract_chars` in `mylib_2.rs`:
`line.chars().skip(start).take(end.saturating_sub(start))` for each range,
flattened in range order. -/
def extract_chars (line : List Char) (char_pos : List (Nat × Nat)) : List Char :=
  char_pos.flatMap (fun r => (line.drop r.1).take (r.2 - r.1))

/-- Embedding of `line.as_bytes().get(range).unwrap_or(&[])` in
`extract_bytes`: Rust's `slice::get` with a range returns `None` (here `[]`)
unless `start ≤ end ∧ end ≤ len`; it does not clip. -/
def sliceGet (bytes : List Nat) (r : Nat × Nat) : List Nat :=
  if r.1 ≤ r.2 ∧ r.2 ≤ bytes.length then (bytes.drop r.1).take (r.2 - r.1) else []

/-- Embedding of `extract_bytes` in `mylib_2.rs`: concatenate the in-bounds
range slices of the raw bytes, then decode lossily. -/
def extract_bytes (line : List Nat) (byte_pos : List (Nat × Nat)) : List Nat :=
  utf8Lossy (byte_pos.flatMap (sliceGet line))

/-- Embedding of `extract_fields` in `mylib_2.rs`:
`record.iter().enumerate().filter(|(i, _)| range.contains(i))` for each
range, flattened in range order. -/
def extract_fields (record : List String) (field_pos : List (Nat × Nat)) : List String :=
  field_pos.flatMap (fun r =>
    ((enumerateFrom 0 record).filter (fun p => decide (r.1 ≤ p.1 ∧ p.1 < r.2))).map Prod.snd)

end mylib_2

namespace mylib

/-- Embedding of `validate_element` in `mylib.rs`: reject any `'+'`, then
parse as `usize` (zero is allowed here and handled by the callers). -/
def validate_element (v : List Char) : Except String Nat :=
  if v.contains '+' then .error (mylib_2.value_error v)
  else
    match rustParseUsize v with
    | some n => .ok n
    | none => .error (mylib_2.value_error v)

/-- Embedding of `convert_to_list` in `mylib.rs`: split the token on dashes,
validate the first two parts, reject a third part, reject zero on either
side, and require the first number to be strictly lower than the second.
The fallback arm is unreachable: the caller only passes tokens containing a
dash, for which the split yields at least two parts (the source `unwrap`s). -/
def convert_to_list (v : List Char) : Except String (Nat × Nat) :=
  match splitAll '-' v with
  | a :: b :: rest =>
    let s := validate_element a
    let e := validate_element b
    if !rest.isEmpty then .error "Too many list elements"
    else
      match s, e with
      | .ok 0, _ => .error "illegal list value: \"0\""
      | _, .ok 0 => .error "illegal list value: \"0\""
      | .ok n1, .ok n2 =>
        if n1 < n2 then .ok (n1 - 1, n2)
        else
          .error ("First number in range (" ++ String.mk (natRepr n1)
            ++ ") must be lower than second number (" ++ String.mk (natRepr n2) ++ ")")
      | .error _, _ => .error (mylib_2.value_error v)
      | _, .error _ => .error (mylib_2.value_error v)
  | _ => .error "Too many list elements"

/-- Embedding of the per-token closure of `parse_pos` in `mylib.rs`: tokens
containing a dash go to `convert_to_list`, bare tokens are validated and
zero is rejected. -/
def parse_token (part : List Char) : Except String (Nat × Nat) :=
  if part.contains '-' then convert_to_list part
  else
    match validate_element part with
    | .ok 0 => .error "illegal list value: \"0\""
    | .ok n => .ok (n - 1, n)
    | .error e => .error e

/-- Embedding of `parse_pos` in `mylib.rs`: an empty specification is
rejected up front, otherwise split on commas and collect. -/
def parse_pos (range : String) : Except String (List (Nat × Nat)) :=
  if range.data.isEmpty then .error "Range cannot be empty!"
  else traverseTokens parse_token (splitAll ',' range.data)

end mylib

example : mylib_2.parse_pos "1" = .ok [(0, 1)] := rfl
example : mylib_2.parse_pos "1,7,3-5" = .ok [(0, 1), (6, 7), (2, 5)] := rfl
example : mylib_2.parse_pos "0-1" = .error "illegal list value: \"0\"" := rfl
example : mylib_2.parse_pos "+1-2" = .error "illegal list value: \"+1-2\"" := rfl
example : mylib_2.parse_pos "1-1" =
    .error "First number in range (1) must be lower than second number (1)" := rfl
example : mylib_2.parse_pos "" = .error "illegal list value: \"\"" := rfl
example : mylib.parse_pos "" = .error "Range cannot be empty!" := rfl
example : mylib.parse_pos "1,7,3-5" = .ok [(0, 1), (6, 7), (2, 5)] := rfl
example : mylib.parse_pos "2-1" =
    .error "First number in range (2) must be lower than second number (1)" := rfl
example : mylib.parse_pos "1-1-1" = .error "Too many list elements" := rfl
example : mylib_2.extract_chars "ábc".data [(0, 1), (2, 3)] = "ác".data := by decide
example : mylib_2.extract_chars "ábc".data [(0, 1), (4, 5)] = "á".data := by decide
example : mylib_2.extract_bytes (strBytes "ábc") [(0, 2)] = strCodes "á" := by decide
example : mylib_2.extract_bytes (strBytes "ábc") [(0, 1)] = [0xFFFD] := by decide
example : mylib_2.extract_bytes (strBytes "ábc") [(3, 4), (2, 3)] = strCodes "cb" := by decide
example : mylib_2.extract_fields ["Captain", "Sham", "12345"] [(1, 2), (0, 1)] =
    ["Sham", "Captain"] := by decide

/-
Helper lemmas about the splitting primitives.
-/

theorem splitFirst_none_iff (c : Char) (t : List Char) :
    splitFirst c t = none ↔ c ∉ t := by
  induction t with
  | nil => simp [splitFirst]
  | cons x xs ih =>
    simp only [splitFirst]
    by_cases hx : x = c
    · subst hx; simp
    · rw [if_neg hx]
      cases hsf : splitFirst c xs with
      | none =>
        simp only [List.mem_cons]
        constructor
        · intro _ hc
          rcases hc with hc | hc
          · exact hx hc.symm
          · exact (ih.mp hsf) hc
        · intro _; trivial
      | some p =>
        obtain ⟨a, b⟩ := p
        simp only [List.mem_cons]
        constructor
        · intro h; cases h
        · intro h
          exfalso
          exact h (Or.inr (by
            by_contra hc
            rw [ih.mpr hc] at hsf
            cases hsf))

theorem splitFirst_some (c : Char) :
    ∀ {t a b : List Char}, splitFirst c t = some (a, b) → t = a ++ c :: b ∧ c ∉ a := by
  intro t
  induction t with
  | nil => intro a b h; simp [splitFirst] at h
  | cons x xs ih =>
    intro a b h
    simp only [splitFirst] at h
    by_cases hx : x = c
    · rw [if_pos hx] at h
      injection h with h
      injection h with h1 h2
      subst h1; subst h2; subst hx
      exact ⟨rfl, by simp⟩
    · rw [if_neg hx] at h
      cases hsf : splitFirst c xs with
      | none => rw [hsf] at h; cases h
      | some p =>
        obtain ⟨a', b'⟩ := p
        rw [hsf] at h
        injection h with h
        injection h with h1 h2
        subst h1; subst h2
        obtain ⟨hxs, hna⟩ := ih hsf
        constructor
        · rw [hxs]; rfl
        · intro hm
          rcases List.mem_cons.mp hm with hm | hm
          · exact hx hm.symm
          · exact hna hm

theorem splitFirst_append {c : Char} :
    ∀ {a : List Char}, c ∉ a → ∀ b, splitFirst c (a ++ c :: b) = some (a, b) := by
  intro a
  induction a with
  | nil => intro _ b; simp [splitFirst]
  | cons x xs ih =>
    intro h b
    have hx : x ≠ c := fun hc => h (by rw [hc]; exact List.mem_cons_self _ _)
    have hxs : c ∉ xs := fun hm => h (List.mem_cons_of_mem _ hm)
    show splitFirst c (x :: (xs ++ c :: b)) = some (x :: xs, b)
    simp only [splitFirst, if_neg hx, ih hxs b]

theorem splitAllAux_eq (c : Char) :
    ∀ (t acc : List Char),
      splitAllAux c t acc =
        match splitFirst c t with
        | none => [acc.reverse ++ t]
        | some (a, b) => (acc.reverse ++ a) :: splitAll c b := by
  intro t
  induction t with
  | nil => intro acc; simp [splitAllAux, splitFirst]
  | cons x xs ih =>
    intro acc
    simp only [splitAllAux, splitFirst]
    by_cases hx : x = c
    · rw [if_pos hx, if_pos hx]
      simp [splitAll]
    · rw [if_neg hx, if_neg hx, ih (x :: acc)]
      cases hsf : splitFirst c xs with
      | none => simp
      | some p => obtain ⟨a, b⟩ := p; simp

theorem splitAll_of_not_mem {c : Char} {t : List Char} (hc : c ∉ t) :
    splitAll c t = [t] := by
  have h := splitAllAux_eq c t []
  rw [(splitFirst_none_iff _ _).mpr hc] at h
  simpa [splitAll] using h

theorem splitAll_cons_of_splitFirst {c : Char} {t a b : List Char}
    (h : splitFirst c t = some (a, b)) : splitAll c t = a :: splitAll c b := by
  have h2 := splitAllAux_eq c t []
  rw [h] at h2
  simpa [splitAll] using h2

theorem splitAll_ne_nil (c : Char) (t : List Char) : splitAll c t ≠ [] := by
  cases hsf : splitFirst c t with
  | none =>
    rw [splitAll_of_not_mem ((splitFirst_none_iff _ _).mp hsf)]
    simp
  | some p =>
    obtain ⟨a, b⟩ := p
    rw [splitAll_cons_of_splitFirst hsf]
    simp

/-
Helper lemmas about digits and decimal rendering.
-/

theorem isDigitCh_digitChar {d : Nat} (h : d < 10) :
    isDigitCh (Nat.digitChar d) = true := by
  interval_cases d <;> decide

theorem digitChar_val {d : Nat} (h : d < 10) : (Nat.digitChar d).toNat - 48 = d := by
  interval_cases d <;> decide

theorem digitsVal_snoc (l : List Char) (c : Char) :
    digitsVal (l ++ [c]) = 10 * digitsVal l + (c.toNat - 48) := by
  simp [digitsVal, List.foldl_append]

theorem natDigitsAux_all_digit : ∀ fuel n, (natDigitsAux fuel n).all isDigitCh = true := by
  intro fuel
  induction fuel with
  | zero => intro n; simp [natDigitsAux]
  | succ f ih =>
    intro n
    cases n with
    | zero => simp [natDigitsAux]
    | succ m =>
      have hd : isDigitCh (Nat.digitChar ((m + 1) % 10)) = true :=
        isDigitCh_digitChar (Nat.mod_lt _ (by norm_num))
      simp [natDigitsAux, List.all_append, ih, hd]

theorem natDigitsAux_val : ∀ fuel n, n ≤ fuel → digitsVal (natDigitsAux fuel n) = n := by
  intro fuel
  induction fuel with
  | zero =>
    intro n h
    have : n = 0 := by omega
    subst this
    rfl
  | succ f ih =>
    intro n h
    cases n with
    | zero => rfl
    | succ m =>
      have hdiv : (m + 1) / 10 < m + 1 := Nat.div_lt_self (by omega) (by norm_num)
      rw [natDigitsAux, digitsVal_snoc, ih _ (by omega),
        digitChar_val (Nat.mod_lt _ (by norm_num))]
      exact Nat.div_add_mod (m + 1) 10

theorem natRepr_all_digit (n : Nat) : (natRepr n).all isDigitCh = true := by
  by_cases h : n = 0
  · subst h; decide
  · rw [natRepr, if_neg h]; exact natDigitsAux_all_digit n n

theorem natRepr_ne_nil (n : Nat) : natRepr n ≠ [] := by
  by_cases h : n = 0
  · subst h; decide
  · rw [natRepr, if_neg h]
    rcases n with _ | m
    · exact absurd rfl h
    · simp [natDigitsAux]

theorem digitsVal_natRepr (n : Nat) : digitsVal (natRepr n) = n := by
  by_cases h : n = 0
  · subst h; rfl
  · rw [natRepr, if_neg h]; exact natDigitsAux_val n n le_rfl

theorem not_mem_of_all_digit {t : List Char} (h : t.all isDigitCh = true)
    {c : Char} (hc : isDigitCh c = false) : c ∉ t := by
  intro hm
  rw [List.all_eq_true] at h
  have := h c hm
  rw [hc] at this
  cases this

/-- A token is a nonempty run of ASCII digits. -/
def digitsTok (t : List Char) : Bool := !t.isEmpty && t.all isDigitCh

theorem head_ne_plus_of_digits {t : List Char} (h : t.all isDigitCh = true)
    (hne : t ≠ []) : t.head? ≠ some '+' := by
  cases t with
  | nil => exact absurd rfl hne
  | cons c r =>
    intro hc
    injection hc with hc
    subst hc
    simp [List.all_cons, isDigitCh] at h

theorem contains_iff_mem (t : List Char) (c : Char) : t.contains c = true ↔ c ∈ t := by
  induction t with
  | nil => simp [List.contains]
  | cons x xs ih => simp [List.contains]

/-- Full characterization of `parse_index` in `mylib_2.rs`: it succeeds with
`digitsVal t - 1` exactly when the token is a nonempty ASCII digit run with a
nonzero value, and every failure carries the `illegal list value` message for
the whole token. -/
theorem parse_index_eq (t : List Char) :
    mylib_2.parse_index t =
      if digitsTok t && !(digitsVal t == 0) then .ok (digitsVal t - 1)
      else .error (mylib_2.value_error t) := by
  by_cases hd : digitsTok t = true
  · have hne : t ≠ [] := by
      intro h; subst h; exact absurd hd (by decide)
    have hsplit : (!t.isEmpty) = true ∧ t.all isDigitCh = true := by
      simpa [digitsTok] using hd
    have hh : t.head? ≠ some '+' := head_ne_plus_of_digits hsplit.2 hne
    rw [mylib_2.parse_index, if_neg hh, rustParseNonZeroUsize, rustParseUsize, if_neg hh,
      if_pos (show (!t.isEmpty && t.all isDigitCh) = true from hd), hd]
    cases hv : digitsVal t with
    | zero => rfl
    | succ m => rfl
  · have hd' : digitsTok t = false := by
      cases h : digitsTok t
      · rfl
      · exact absurd h hd
    cases t with
    | nil => rfl
    | cons c r =>
      by_cases hc : c = '+'
      · subst hc
        rw [hd', mylib_2.parse_index,
          if_pos (show ('+' :: r).head? = some '+' from rfl)]
        rfl
      · have hh : (c :: r).head? ≠ some '+' := by
          simp only [List.head?_cons]
          exact fun h => hc (Option.some.inj h)
        rw [hd', mylib_2.parse_index, if_neg hh, rustParseNonZeroUsize, rustParseUsize,
          if_neg hh, (show (!(c :: r).isEmpty && (c :: r).all isDigitCh) = false from hd')]
        rfl

/-- Full characterization of `validate_element` in `mylib.rs`: it succeeds
with the parsed value (zero included) exactly on nonempty ASCII digit runs,
and every failure carries the `illegal list value` message for the token. -/
theorem validate_element_eq (t : List Char) :
    mylib.validate_element t =
      if digitsTok t then .ok (digitsVal t) else .error (mylib_2.value_error t) := by
  by_cases hp : t.contains '+' = true
  · have hmem : '+' ∈ t := (contains_iff_mem t '+').mp hp
    have hd : digitsTok t = false := by
      cases hae : t.all isDigitCh
      · rw [digitsTok, hae, Bool.and_false]
      · rw [List.all_eq_true] at hae
        have := hae '+' hmem
        exact absurd this (by decide)
    rw [mylib.validate_element, if_pos hp, hd]
    rfl
  · have hp' : t.contains '+' = false := by
      cases h : t.contains '+'
      · rfl
      · exact absurd h hp
    have hnp : '+' ∉ t := fun hm => hp ((contains_iff_mem t '+').mpr hm)
    have hh : t.head? ≠ some '+' := by
      cases t with
      | nil => intro h; cases h
      | cons c r =>
        simp only [List.head?_cons]
        intro h
        exact hnp (by rw [Option.some.inj h]; exact List.mem_cons_self _ _)
    rw [mylib.validate_element, if_neg (by rw [hp']; exact fun h => nomatch h),
      rustParseUsize, if_neg hh]
    by_cases hd : digitsTok t = true
    · rw [hd, if_pos (show (!t.isEmpty && t.all isDigitCh) = true from hd)]
      rfl
    · have hd' : digitsTok t = false := by
        cases h : digitsTok t
        · rfl
        · exact absurd h hd
      rw [hd', (show (!t.isEmpty && t.all isDigitCh) = false from hd')]
      rfl

/-- The common success behaviour of one range-specification token, shared by
both parsers: a bare nonzero digit run `n` yields `[n-1, n)`; a token
`a-b` of two nonzero digit runs with `value a < value b` yields
`[value a - 1, value b)`; everything else is an error. -/
def tokenSpec (t : List Char) : Option (Nat × Nat) :=
  match splitFirst '-' t with
  | none =>
    if digitsTok t && !(digitsVal t == 0) then some (digitsVal t - 1, digitsVal t)
    else none
  | some (a, b) =>
    if digitsTok a && digitsTok b && !(digitsVal a == 0) && !(digitsVal b == 0)
        && decide (digitsVal a < digitsVal b)
    then some (digitsVal a - 1, digitsVal b) else none

/-- The per-token parser of `mylib_2.rs` realizes `tokenSpec` (forgetting
error messages). -/
theorem parse_pos_token_exOpt (t : List Char) :
    exOpt (mylib_2.parse_pos_token t) = tokenSpec t := by
  cases hsf : splitFirst '-' t with
  | none =>
    rw [mylib_2.parse_pos_token, parse_index_eq t, tokenSpec, hsf,
      mylib_2.range_re_captures, hsf]
    by_cases hd : (digitsTok t && !(digitsVal t == 0)) = true
    · rw [if_pos hd, if_pos hd]
      have hz : digitsVal t ≠ 0 := by
        intro h0; rw [h0] at hd; simp at hd
      have h1 : digitsVal t - 1 + 1 = digitsVal t := by omega
      simp only [exOpt]
      rw [h1]
    · rw [if_neg hd, if_neg hd]
      rfl
  | some p =>
    obtain ⟨a, b⟩ := p
    obtain ⟨ht, _hna⟩ := splitFirst_some '-' hsf
    have hdt : digitsTok t = false := by
      cases hae : t.all isDigitCh
      · rw [digitsTok, hae, Bool.and_false]
      · rw [List.all_eq_true] at hae
        have hmem : '-' ∈ t := by
          rw [ht]; exact List.mem_append_right _ (List.mem_cons_self _ _)
        exact absurd (hae '-' hmem) (by decide)
    rw [mylib_2.parse_pos_token, parse_index_eq t, hdt, mylib_2.range_re_captures,
      tokenSpec, hsf]
    simp only [Bool.false_and, Bool.false_eq_true, if_false]
    by_cases hab : (!a.isEmpty && !b.isEmpty && a.all isDigitCh && b.all isDigitCh) = true
    · have hA1 : a.isEmpty = false := by
        cases h : a.isEmpty
        · rfl
        · rw [h] at hab; simp at hab
      have hA2 : a.all isDigitCh = true := by
        cases h : a.all isDigitCh
        · rw [h] at hab; simp at hab
        · rfl
      have hB1 : b.isEmpty = false := by
        cases h : b.isEmpty
        · rfl
        · rw [h] at hab; simp at hab
      have hB2 : b.all isDigitCh = true := by
        cases h : b.all isDigitCh
        · rw [h] at hab; simp at hab
        · rfl
      have hda : digitsTok a = true := by simp [digitsTok, hA1, hA2]
      have hdb : digitsTok b = true := by simp [digitsTok, hB1, hB2]
      rw [if_pos hab]
      simp only []
      rw [parse_index_eq a, parse_index_eq b, hda, hdb]
      by_cases hza : digitsVal a = 0
      · rw [hza]
        rfl
      · have ha0 : (digitsVal a == 0) = false := by simp [hza]
        rw [ha0]
        by_cases hzb : digitsVal b = 0
        · rw [hzb]
          rfl
        · have hb0 : (digitsVal b == 0) = false := by simp [hzb]
          rw [hb0]
          simp only [Bool.not_false, Bool.and_true, Bool.true_and, if_true]
          by_cases hlt : digitsVal a < digitsVal b
          · have hge : ¬ (digitsVal a - 1 ≥ digitsVal b - 1) := by omega
            rw [if_neg hge, decide_eq_true hlt, if_pos rfl]
            simp only [exOpt]
            have h1 : digitsVal b - 1 + 1 = digitsVal b := by omega
            rw [h1]
          · have hge : digitsVal a - 1 ≥ digitsVal b - 1 := by omega
            rw [if_pos hge, decide_eq_false hlt]
            rfl
    · have hcond2 : (digitsTok a && digitsTok b && !(digitsVal a == 0)
          && !(digitsVal b == 0) && decide (digitsVal a < digitsVal b)) = false := by
        cases hA1 : a.isEmpty <;> cases hA2 : a.all isDigitCh <;>
          cases hB1 : b.isEmpty <;> cases hB2 : b.all isDigitCh <;>
          simp [digitsTok, hA1, hA2, hB1, hB2] at hab ⊢
      rw [if_neg hab, hcond2]
      rfl

/-- The per-token parser of `mylib.rs` also realizes `tokenSpec` (forgetting
error messages), although its error messages differ from `mylib_2.rs`. -/
theorem parse_token_exOpt (t : List Char) :
    exOpt (mylib.parse_token t) = tokenSpec t := by
  cases hsf : splitFirst '-' t with
  | none =>
    have hnm : '-' ∉ t := (splitFirst_none_iff '-' t).mp hsf
    have hct : t.contains '-' = false := by
      cases h : t.contains '-'
      · rfl
      · exact absurd ((contains_iff_mem t '-').mp h) hnm
    rw [mylib.parse_token, if_neg (by rw [hct]; exact fun h => nomatch h),
      validate_element_eq, tokenSpec, hsf]
    by_cases hd : digitsTok t = true
    · rw [hd]
      simp only [if_true]
      cases hv : digitsVal t with
      | zero => rfl
      | succ m => rfl
    · have hd' : digitsTok t = false := by
        cases h : digitsTok t
        · rfl
        · exact absurd h hd
      rw [hd']
      rfl
  | some p =>
    obtain ⟨a, b⟩ := p
    obtain ⟨ht, _hna⟩ := splitFirst_some '-' hsf
    have hmem : '-' ∈ t := by
      rw [ht]; exact List.mem_append_right _ (List.mem_cons_self _ _)
    have hct : t.contains '-' = true := (contains_iff_mem t '-').mpr hmem
    rw [mylib.parse_token, if_pos hct, mylib.convert_to_list,
      splitAll_cons_of_splitFirst hsf, tokenSpec, hsf]
    cases hsb : splitFirst '-' b with
    | some q =>
      obtain ⟨b1, b2⟩ := q
      obtain ⟨hb, _⟩ := splitFirst_some '-' hsb
      have hdb : digitsTok b = false := by
        cases hae : b.all isDigitCh
        · rw [digitsTok, hae, Bool.and_false]
        · rw [List.all_eq_true] at hae
          have hmb : '-' ∈ b := by
            rw [hb]; exact List.mem_append_right _ (List.mem_cons_self _ _)
          exact absurd (hae '-' hmb) (by decide)
      have hrest : (splitAll '-' b2).isEmpty = false := by
        cases h : splitAll '-' b2 with
        | nil => exact absurd h (splitAll_ne_nil _ _)
        | cons x xs => rfl
      rw [splitAll_cons_of_splitFirst hsb]
      simp only [hrest, Bool.not_false, if_true, hdb, Bool.false_and, Bool.and_false,
        Bool.false_eq_true, if_false]
      rfl
    | none =>
      rw [splitAll_of_not_mem ((splitFirst_none_iff _ _).mp hsb)]
      simp only [List.isEmpty_nil, Bool.not_true, Bool.false_eq_true, if_false]
      rw [validate_element_eq a, validate_element_eq b]
      by_cases hda : digitsTok a = true
      · rw [hda]
        by_cases hdb : digitsTok b = true
        · rw [hdb]
          simp only [if_true]
          cases hva : digitsVal a with
          | zero =>
            cases hvb : digitsVal b with
            | zero => rfl
            | succ k => rfl
          | succ m =>
            cases hvb : digitsVal b with
            | zero => rfl
            | succ k =>
              simp only []
              by_cases hlt : m + 1 < k + 1
              · rw [if_pos hlt, decide_eq_true hlt]
                rfl
              · rw [if_neg hlt, decide_eq_false hlt]
                rfl
        · have hdb' : digitsTok b = false := by
            cases h : digitsTok b
            · rfl
            · exact absurd h hdb
          rw [hdb']
          simp only [if_true, Bool.false_eq_true, if_false]
          cases hva : digitsVal a with
          | zero => rfl
          | succ m => rfl
      · have hda' : digitsTok a = false := by
          cases h : digitsTok a
          · rfl
          · exact absurd h hda
        rw [hda']
        simp only [Bool.false_eq_true, if_false, Bool.false_and]
        by_cases hdb : digitsTok b = true
        · rw [hdb]
          simp only [if_true]
          cases hvb : digitsVal b with
          | zero => rfl
          | succ k => rfl
        · have hdb' : digitsTok b = false := by
            cases h : digitsTok b
            · rfl
            · exact absurd h hdb
          rw [hdb']
          simp only [Bool.false_eq_true, if_false]
          rfl

/-- Two token parsers that agree up to error messages produce, over any token
list, results that agree up to error messages. -/
theorem traverseTokens_congr {f g : List Char → Except String (Nat × Nat)}
    (h : ∀ t, exOpt (f t) = exOpt (g t)) :
    ∀ ts, exOpt (traverseTokens f ts) = exOpt (traverseTokens g ts) := by
  intro ts
  induction ts with
  | nil => rfl
  | cons t ts ih =>
    simp only [traverseTokens]
    cases hf : f t with
    | error e =>
      have hgn : exOpt (g t) = none := by rw [← h t, hf]; rfl
      cases hgt : g t with
      | error e2 => rfl
      | ok r => rw [hgt] at hgn; cases hgn
    | ok r =>
      have hgs : exOpt (g t) = some r := by rw [← h t, hf]; rfl
      cases hgt : g t with
      | error e2 => rw [hgt] at hgs; cases hgs
      | ok r2 =>
        rw [hgt] at hgs
        have hr : r2 = r := by
          have : some r2 = some r := hgs
          injection this
        subst hr
        cases ht1 : traverseTokens f ts with
        | error e1 =>
          have hn : exOpt (traverseTokens g ts) = none := by rw [← ih, ht1]; rfl
          cases ht2 : traverseTokens g ts with
          | error e2 => rfl
          | ok l => rw [ht2] at hn; cases hn
        | ok l =>
          have hs : exOpt (traverseTokens g ts) = some l := by rw [← ih, ht1]; rfl
          cases ht2 : traverseTokens g ts with
          | error e2 => rw [ht2] at hs; cases hs
          | ok l2 =>
            rw [ht2] at hs
            have hl : l2 = l := by
              have : some l2 = some l := hs
              injection this
            subst hl
            rfl

/-- A successful traversal produces exactly one result per token, in token
order, each the successful parse of its token. -/
theorem traverseTokens_ok_forall₂ {f : List Char → Except String (Nat × Nat)} :
    ∀ {ts : List (List Char)} {l : List (Nat × Nat)}, traverseTokens f ts = .ok l →
      List.Forall₂ (fun t r => f t = .ok r) ts l := by
  intro ts
  induction ts with
  | nil =>
    intro l h
    simp only [traverseTokens] at h
    injection h with h
    subst h
    exact List.Forall₂.nil
  | cons t ts ih =>
    intro l h
    simp only [traverseTokens] at h
    cases hf : f t with
    | error e => rw [hf] at h; cases h
    | ok r =>
      rw [hf] at h
      cases ht : traverseTokens f ts with
      | error e => rw [ht] at h; cases h
      | ok rs =>
        rw [ht] at h
        have hl : r :: rs = l := by
          have : Except.ok (ε := String) (r :: rs) = .ok l := h
          injection this
        subst hl
        exact List.Forall₂.cons hf (ih ht)

/-- Every interval of a successful traversal comes from some token. -/
theorem traverseTokens_ok_mem {f : List Char → Except String (Nat × Nat)} :
    ∀ {ts : List (List Char)} {l : List (Nat × Nat)}, traverseTokens f ts = .ok l →
      ∀ r ∈ l, ∃ t ∈ ts, f t = .ok r := by
  intro ts
  induction ts with
  | nil =>
    intro l h r hr
    simp only [traverseTokens] at h
    injection h with h
    subst h
    cases hr
  | cons t ts ih =>
    intro l h r hr
    simp only [traverseTokens] at h
    cases hf : f t with
    | error e => rw [hf] at h; cases h
    | ok r1 =>
      rw [hf] at h
      cases ht : traverseTokens f ts with
      | error e => rw [ht] at h; cases h
      | ok rs =>
        rw [ht] at h
        have hl : r1 :: rs = l := by
          have : Except.ok (ε := String) (r1 :: rs) = .ok l := h
          injection this
        subst hl
        rcases List.mem_cons.mp hr with hr | hr
        · subst hr
          exact ⟨t, List.mem_cons_self _ _, hf⟩
        · obtain ⟨t2, ht2, hft2⟩ := ih ht r hr
          exact ⟨t2, List.mem_cons_of_mem _ ht2, hft2⟩

/-- Any interval produced by `tokenSpec` is nonempty (`start < end`). -/
theorem tokenSpec_ok_lt {t : List Char} {r : Nat × Nat} (h : tokenSpec t = some r) :
    r.1 < r.2 := by
  rw [tokenSpec] at h
  cases hsf : splitFirst '-' t with
  | none =>
    rw [hsf] at h
    by_cases hc : (digitsTok t && !(digitsVal t == 0)) = true
    · rw [if_pos hc] at h
      have hz : digitsVal t ≠ 0 := by
        intro h0
        rw [h0] at hc
        simp at hc
      have : (digitsVal t - 1, digitsVal t) = r := by injection h
      subst this
      simp only []
      omega
    · rw [if_neg hc] at h
      cases h
  | some p =>
    obtain ⟨a, b⟩ := p
    rw [hsf] at h
    simp only [] at h
    by_cases hc : (digitsTok a && digitsTok b && !(digitsVal a == 0)
        && !(digitsVal b == 0) && decide (digitsVal a < digitsVal b)) = true
    · rw [if_pos hc] at h
      have hlt : digitsVal a < digitsVal b := by
        have hdec : decide (digitsVal a < digitsVal b) = true := by
          by_contra hn
          have : decide (digitsVal a < digitsVal b) = false := by
            cases hh : decide (digitsVal a < digitsVal b)
            · rfl
            · exact absurd hh hn
          rw [this, Bool.and_false] at hc
          cases hc
        exact of_decide_eq_true hdec
      have : (digitsVal a - 1, digitsVal b) = r := by injection h
      subst this
      simp only []
      omega
    · rw [if_neg hc] at h
      cases h

theorem isEmpty_eq_false_of_ne_nil {t : List Char} (h : t ≠ []) : t.isEmpty = false := by
  cases t with
  | nil => exact absurd rfl h
  | cons x xs => rfl

theorem natRepr_digitsTok (n : Nat) : digitsTok (natRepr n) = true := by
  rw [digitsTok, isEmpty_eq_false_of_ne_nil (natRepr_ne_nil n), natRepr_all_digit]
  rfl

theorem dash_not_mem_natRepr (n : Nat) : '-' ∉ natRepr n :=
  not_mem_of_all_digit (natRepr_all_digit n) (by decide)

theorem comma_not_mem_natRepr (n : Nat) : ',' ∉ natRepr n :=
  not_mem_of_all_digit (natRepr_all_digit n) (by decide)

theorem natRepr_cond {n : Nat} (h : n ≠ 0) :
    (digitsTok (natRepr n) && !(digitsVal (natRepr n) == 0)) = true := by
  rw [natRepr_digitsTok, digitsVal_natRepr]
  cases n with
  | zero => exact absurd rfl h
  | succ m => rfl

/-- A canonical decimal token parses to the single index it denotes. -/
theorem parse_pos_token_natRepr {n : Nat} (h : n ≠ 0) :
    mylib_2.parse_pos_token (natRepr n) = .ok (n - 1, n) := by
  rw [mylib_2.parse_pos_token, parse_index_eq, if_pos (natRepr_cond h)]
  simp only []
  rw [digitsVal_natRepr]
  rw [show n - 1 + 1 = n by omega]

/-- A canonical decimal range token `n1-n2` parses to `[n1-1, n2)` when
`n1 < n2` and otherwise fails with the exact "First number..." message
showing the 1-indexed values. -/
theorem parse_pos_token_range {n1 n2 : Nat} (h1 : n1 ≠ 0) (h2 : n2 ≠ 0) :
    mylib_2.parse_pos_token (natRepr n1 ++ '-' :: natRepr n2) =
      if n1 < n2 then .ok (n1 - 1, n2)
      else .error ("First number in range (" ++ String.mk (natRepr n1)
        ++ ") must be lower than second number (" ++ String.mk (natRepr n2) ++ ")") := by
  have hsf : splitFirst '-' (natRepr n1 ++ '-' :: natRepr n2)
      = some (natRepr n1, natRepr n2) :=
    splitFirst_append (dash_not_mem_natRepr n1) _
  have hdt : digitsTok (natRepr n1 ++ '-' :: natRepr n2) = false := by
    cases hae : (natRepr n1 ++ '-' :: natRepr n2).all isDigitCh
    · rw [digitsTok, hae, Bool.and_false]
    · rw [List.all_eq_true] at hae
      have hmm : '-' ∈ natRepr n1 ++ '-' :: natRepr n2 :=
        List.mem_append_right _ (List.mem_cons_self _ _)
      exact absurd (hae '-' hmm) (by decide)
  have hcap : (!(natRepr n1).isEmpty && !(natRepr n2).isEmpty
      && (natRepr n1).all isDigitCh && (natRepr n2).all isDigitCh) = true := by
    rw [isEmpty_eq_false_of_ne_nil (natRepr_ne_nil n1),
      isEmpty_eq_false_of_ne_nil (natRepr_ne_nil n2),
      natRepr_all_digit, natRepr_all_digit]
    rfl
  rw [mylib_2.parse_pos_token, parse_index_eq, hdt]
  simp only [Bool.false_and, Bool.false_eq_true, if_false]
  rw [mylib_2.range_re_captures, hsf]
  simp only []
  rw [if_pos hcap]
  simp only []
  rw [parse_index_eq, if_pos (natRepr_cond h1)]
  simp only []
  rw [parse_index_eq, if_pos (natRepr_cond h2)]
  simp only []
  rw [digitsVal_natRepr, digitsVal_natRepr,
    show n1 - 1 + 1 = n1 by omega, show n2 - 1 + 1 = n2 by omega]
  by_cases hlt : n1 < n2
  · rw [if_neg (show ¬ (n1 - 1 ≥ n2 - 1) by omega), if_pos hlt]
  · rw [if_pos (show n1 - 1 ≥ n2 - 1 by omega), if_neg hlt]

theorem idxRange_map_shift {α : Type} (x : α) (t : List α) (d : α) :
    ∀ (n s : Nat),
      (idxRange (s + 1) n).map (fun i => (x :: t).getD i d)
        = (idxRange s n).map (fun i => t.getD i d) := by
  intro n
  induction n with
  | zero => intro s; rfl
  | succ k ih =>
    intro s
    simp only [idxRange, List.map_cons]
    rw [List.getD_cons_succ, ih (s + 1)]

/-- The slice `drop s / take (e - s)` of a list is exactly the map of the
element-at function over the index interval `[s, min e len)`. -/
theorem drop_take_eq_idxRange {α : Type} (d : α) :
    ∀ (l : List α) (s e : Nat),
      (l.drop s).take (e - s)
        = (idxRange s (min e l.length - s)).map (fun i => l.getD i d) := by
  intro l
  induction l with
  | nil =>
    intro s e
    simp [idxRange]
  | cons x t ih =>
    intro s e
    cases s with
    | zero =>
      cases e with
      | zero => simp [idxRange]
      | succ e2 =>
        have hmin : min (e2 + 1) (t.length + 1) = min e2 t.length + 1 :=
          Nat.succ_min_succ e2 t.length
        simp only [List.drop_zero, Nat.sub_zero, List.length_cons, hmin,
          List.take_succ_cons]
        simp only [idxRange, List.map_cons, List.getD_cons_zero]
        rw [idxRange_map_shift]
        have h0 := ih 0 e2
        simp only [List.drop_zero, Nat.sub_zero] at h0
        rw [← h0]
    | succ s2 =>
      cases e with
      | zero => simp [idxRange]
      | succ e2 =>
        simp only [List.drop_succ_cons, List.length_cons]
        have hmin : min (e2 + 1) (t.length + 1) = min e2 t.length + 1 :=
          Nat.succ_min_succ e2 t.length
        rw [hmin, Nat.succ_sub_succ, Nat.succ_sub_succ, idxRange_map_shift, ← ih s2 e2]

/-- Filtering an enumeration on index membership in `[s, e)` and keeping the
values is the same as slicing. -/
theorem enumFilter_eq_drop_take {α : Type} :
    ∀ (l : List α) (i s e : Nat),
      ((enumerateFrom i l).filter (fun p => decide (s ≤ p.1 ∧ p.1 < e))).map Prod.snd
        = (l.drop (s - i)).take (e - max i s) := by
  intro l
  induction l with
  | nil => intro i s e; simp [enumerateFrom]
  | cons x t ih =>
    intro i s e
    simp only [enumerateFrom, List.filter_cons]
    by_cases hk : s ≤ i ∧ i < e
    · rw [if_pos (decide_eq_true hk)]
      simp only [List.map_cons]
      rw [ih (i + 1) s e]
      obtain ⟨hk1, hk2⟩ := hk
      rw [show s - (i + 1) = 0 by omega, show s - i = 0 by omega,
        show max (i + 1) s = i + 1 by omega, show max i s = i by omega]
      simp only [List.drop_zero]
      rw [show e - i = (e - (i + 1)) + 1 by omega, List.take_succ_cons]
    · rw [if_neg (fun hcontra => hk (of_decide_eq_true hcontra))]
      rw [ih (i + 1) s e]
      by_cases hs : s ≤ i
      · have he : e ≤ i := by omega
        rw [show s - (i + 1) = 0 by omega, show s - i = 0 by omega,
          show e - max (i + 1) s = 0 by omega, show e - max i s = 0 by omega]
        simp
      · rw [show s - i = (s - (i + 1)) + 1 by omega, List.drop_succ_cons,
          show max (i + 1) s = s by omega, show max i s = s by omega]

/-- Spec-side byte slice as the claim words it: the bytes of the line at
indices `start ≤ i < min (end, length)`, i.e. the interval clipped to the
line's length. -/
def clippedSlice (line : List Nat) (r : Nat × Nat) : List Nat :=
  (idxRange r.1 (min r.2 line.length - r.1)).map (fun i => line.getD i 0)

/-- Amended byte slice matching the code: an interval contributes the bytes
at indices `start ≤ i < end` when `end ≤ length`, and nothing at all when it
reaches past the end of the line (dropped whole, not clipped). -/
def inBoundsSlice (line : List Nat) (r : Nat × Nat) : List Nat :=
  if r.2 ≤ line.length then (idxRange r.1 (r.2 - r.1)).map (fun i => line.getD i 0)
  else []

/-- Spec-side character slice: the characters of the line at positions
`start ≤ i < min (end, length)` (counted by character). -/
def charSlice (line : List Char) (r : Nat × Nat) : List Char :=
  (idxRange r.1 (min r.2 line.length - r.1)).map (fun i => line.getD i 'A')

/-- Spec-side field slice: the fields whose zero-based index lies in
`[start, end)`, in record order. -/
def fieldSlice (record : List String) (r : Nat × Nat) : List String :=
  (idxRange r.1 (min r.2 record.length - r.1)).map (fun i => record.getD i "")

theorem sliceGet_eq_inBoundsSlice (line : List Nat) (r : Nat × Nat) :
    mylib_2.sliceGet line r = inBoundsSlice line r := by
  rw [mylib_2.sliceGet, inBoundsSlice]
  by_cases h2 : r.2 ≤ line.length
  · by_cases h1 : r.1 ≤ r.2
    · rw [if_pos ⟨h1, h2⟩, if_pos h2, drop_take_eq_idxRange 0,
        show min r.2 line.length - r.1 = r.2 - r.1 by omega]
    · rw [if_neg (fun hc => h1 hc.1), if_pos h2, show r.2 - r.1 = 0 by omega]
      rfl
  · rw [if_neg (fun hc => h2 hc.2), if_neg h2]

theorem extract_fields_slice (record : List String) (r : Nat × Nat) :
    ((enumerateFrom 0 record).filter (fun p => decide (r.1 ≤ p.1 ∧ p.1 < r.2))).map Prod.snd
      = fieldSlice record r := by
  rw [enumFilter_eq_drop_take record 0 r.1 r.2, Nat.sub_zero,
    show max 0 r.1 = r.1 by omega, drop_take_eq_idxRange ""]
  rfl

/-- C1 (counterexample): the claim says an interval's byte slice is clipped
to the line's length, so on the two-byte line "ab" the interval `[0, 3)`
should contribute the clipped bytes and decode to "ab"; the code instead
drops the partially out-of-range interval whole and returns the empty
result. -/
theorem c1_extract_bytes_not_clipped :
    mylib_2.extract_bytes (strBytes "ab") [(0, 3)] = []
      ∧ utf8Lossy ([((0 : Nat), (3 : Nat))].flatMap (clippedSlice (strBytes "ab")))
          = strCodes "ab"
      ∧ ([] : List Nat) ≠ strCodes "ab" :=
  ⟨rfl, rfl, by decide⟩

/-- C1 (amended): `extract_bytes` returns the lossy best-effort UTF-8
decoding of the concatenation, in interval order, of each interval's byte
slice, where an interval contributes the bytes at indices
`start ≤ i < end` when `end ≤ line length` and contributes nothing at all
otherwise (a partially out-of-range interval is dropped whole, not
clipped); the call never fails, and invalid byte sequences decode to the
U+FFFD replacement character, so `extract_bytes "ábc" [0..2] = "á"` and
`extract_bytes "ábc" [0..1]` is the replacement character. -/
theorem c1_extract_bytes_amended :
    (∀ (line : List Nat) (pos : List (Nat × Nat)),
        mylib_2.extract_bytes line pos = utf8Lossy (pos.flatMap (inBoundsSlice line)))
      ∧ mylib_2.extract_bytes (strBytes "ábc") [(0, 2)] = strCodes "á"
      ∧ mylib_2.extract_bytes (strBytes "ábc") [(0, 1)] = [0xFFFD] := by
  refine ⟨?_, rfl, rfl⟩
  intro line pos
  rw [mylib_2.extract_bytes, funext (sliceGet_eq_inBoundsSlice line)]

/-- C2: for all positive `n1`, `n2`, parsing the single-token range
specification `"n1-n2"` succeeds with exactly `[n1-1, n2)` when `n1 < n2`,
and otherwise fails with exactly the message `First number in range (n1)
must be lower than second number (n2)` showing the 1-indexed values as the
user gave them. -/
theorem c2_range_token (a b : Nat) :
    mylib_2.parse_pos (String.mk (natRepr (a + 1) ++ '-' :: natRepr (b + 1))) =
      if a + 1 < b + 1 then .ok [(a, b + 1)]
      else .error ("First number in range (" ++ String.mk (natRepr (a + 1))
        ++ ") must be lower than second number (" ++ String.mk (natRepr (b + 1)) ++ ")") := by
  have hnc : ',' ∉ natRepr (a + 1) ++ '-' :: natRepr (b + 1) := by
    intro hm
    rcases List.mem_append.mp hm with hm | hm
    · exact comma_not_mem_natRepr _ hm
    · rcases List.mem_cons.mp hm with hm | hm
      · exact absurd hm (by decide)
      · exact comma_not_mem_natRepr _ hm
  rw [mylib_2.parse_pos,
    show (String.mk (natRepr (a + 1) ++ '-' :: natRepr (b + 1))).data
      = natRepr (a + 1) ++ '-' :: natRepr (b + 1) from rfl,
    splitAll_of_not_mem hnc]
  simp only [traverseTokens]
  rw [parse_pos_token_range (by omega) (by omega)]
  by_cases hlt : a + 1 < b + 1
  · rw [if_pos hlt, if_pos hlt]
    rfl
  · rw [if_neg hlt, if_neg hlt]

/-- C3 (counterexample): parsing the empty specification with the parser of
`mylib_2.rs` does fail, but its error message is `illegal list value: ""`
(the empty token is rejected as an illegal list value), not the literal
`Range cannot be empty!` the claim requires. -/
theorem c3_empty_message_counterexample :
    mylib_2.parse_pos "" = .error "illegal list value: \"\""
      ∧ ("illegal list value: \"\"" : String) ≠ "Range cannot be empty!" :=
  ⟨rfl, by decide⟩

/-- C3 (amended): parsing the empty range specification fails in both
implementations; `parse_pos` of `mylib.rs` returns exactly the literal
message `Range cannot be empty!`, while `parse_pos` of `mylib_2.rs` fails
with `illegal list value: ""` for the empty token. -/
theorem c3_empty_spec :
    mylib.parse_pos "" = .error "Range cannot be empty!"
      ∧ mylib_2.parse_pos "" = .error "illegal list value: \"\"" :=
  ⟨rfl, rfl⟩

/-- C4: whenever `parse_pos` succeeds, the position list has exactly one
interval per comma-separated token, in exactly the order the tokens appear
(never sorted, merged or deduplicated); in particular
`parse_pos "3,1,3" = [[2,3), [0,1), [2,3)]` and
`parse_pos "1,7,3-5" = [[0,1), [6,7), [2,5)]`. -/
theorem c4_order_preserved :
    (∀ (s : String) (l : List (Nat × Nat)), mylib_2.parse_pos s = .ok l →
        List.Forall₂ (fun t r => mylib_2.parse_pos_token t = .ok r) (splitAll ',' s.data) l)
      ∧ mylib_2.parse_pos "3,1,3" = .ok [(2, 3), (0, 1), (2, 3)]
      ∧ mylib_2.parse_pos "1,7,3-5" = .ok [(0, 1), (6, 7), (2, 5)] := by
  refine ⟨?_, rfl, rfl⟩
  intro s l h
  rw [mylib_2.parse_pos] at h
  exact traverseTokens_ok_forall₂ h

/-- Witness for C4 at the concrete input "3,1,3". -/
theorem c4_order_preserved_witness :
    List.Forall₂ (fun t r => mylib_2.parse_pos_token t = .ok r)
      (splitAll ',' "3,1,3".data) [(2, 3), (0, 1), (2, 3)] :=
  c4_order_preserved.1 "3,1,3" [(2, 3), (0, 1), (2, 3)] rfl

/-- C5: `extract_chars` returns, for each interval in order, the characters
of the line at positions `start ≤ i < min (end, character count)` (counted
by character), clipping silently, and never fails; in particular
`extract_chars "ábc" [0..1, 4..5] = "á"` and
`extract_chars "ábc" [0..1, 2..3] = "ác"`. -/
theorem c5_extract_chars :
    (∀ (line : List Char) (pos : List (Nat × Nat)),
        mylib_2.extract_chars line pos = pos.flatMap (charSlice line))
      ∧ mylib_2.extract_chars "ábc".data [(0, 1), (4, 5)] = "á".data
      ∧ mylib_2.extract_chars "ábc".data [(0, 1), (2, 3)] = "ác".data := by
  refine ⟨?_, rfl, rfl⟩
  intro line pos
  rw [mylib_2.extract_chars]
  have h : (fun r : Nat × Nat => (line.drop r.1).take (r.2 - r.1)) = charSlice line :=
    funext fun r => drop_take_eq_idxRange 'A' line r.1 r.2
  rw [h]

/-- C6: `extract_fields` returns, concatenated in interval order, exactly
the fields whose zero-based index lies in `[start, end)` for each interval,
preserving the record's original field order within each interval; fields
covered by no interval are dropped and a field covered by several intervals
appears once per covering interval; in particular
`extract_fields ["Captain","Sham","12345"] [1..2, 0..1] = ["Sham","Captain"]`. -/
theorem c6_extract_fields :
    (∀ (record : List String) (pos : List (Nat × Nat)),
        mylib_2.extract_fields record pos = pos.flatMap (fieldSlice record))
      ∧ mylib_2.extract_fields ["Captain", "Sham", "12345"] [(1, 2), (0, 1)]
          = ["Sham", "Captain"] := by
  refine ⟨?_, rfl⟩
  intro record pos
  rw [mylib_2.extract_fields]
  have h : (fun r : Nat × Nat =>
      ((enumerateFrom 0 record).filter (fun p => decide (r.1 ≤ p.1 ∧ p.1 < r.2))).map Prod.snd)
        = fieldSlice record :=
    funext fun r => extract_fields_slice record r
  rw [h]

/-- C7: the `illegal list value: "<x>"` message of the `mylib_2.rs` parser
names the whole token exactly as typed for tokens with a leading `+` or a
non-numeric side of a dash range, names just `0` when a zero appears as a
bare token or on either side of a dash, and names the bare token itself for
a single non-numeric token (also inside a longer list). -/
theorem c7_illegal_value_granularity :
    mylib_2.parse_pos "+1" = .error "illegal list value: \"+1\""
      ∧ mylib_2.parse_pos "+1-2" = .error "illegal list value: \"+1-2\""
      ∧ mylib_2.parse_pos "1-+2" = .error "illegal list value: \"1-+2\""
      ∧ mylib_2.parse_pos "1-a" = .error "illegal list value: \"1-a\""
      ∧ mylib_2.parse_pos "a-1" = .error "illegal list value: \"a-1\""
      ∧ mylib_2.parse_pos "0" = .error "illegal list value: \"0\""
      ∧ mylib_2.parse_pos "0-1" = .error "illegal list value: \"0\""
      ∧ mylib_2.parse_pos "3-0" = .error "illegal list value: \"0\""
      ∧ mylib_2.parse_pos "a" = .error "illegal list value: \"a\""
      ∧ mylib_2.parse_pos "1,a" = .error "illegal list value: \"a\"" :=
  ⟨rfl, rfl, rfl, rfl, rfl, rfl, rfl, rfl, rfl, rfl⟩

/-- C8: for every positive integer, parsing its decimal string as a single
token yields exactly `[n-1, n)`, and extra leading zeros are ignored
numerically, so `parse_pos "001,0003" = parse_pos "1,3"`. -/
theorem c8_single_number (a : Nat) :
    mylib_2.parse_pos (String.mk (natRepr (a + 1))) = .ok [(a, a + 1)]
      ∧ mylib_2.parse_pos "001,0003" = mylib_2.parse_pos "1,3"
      ∧ mylib_2.parse_pos "001,0003" = .ok [(0, 1), (2, 3)] := by
  refine ⟨?_, rfl, rfl⟩
  rw [mylib_2.parse_pos,
    show (String.mk (natRepr (a + 1))).data = natRepr (a + 1) from rfl,
    splitAll_of_not_mem (comma_not_mem_natRepr (a + 1))]
  simp only [traverseTokens]
  rw [parse_pos_token_natRepr (by omega)]
  rfl

/-- C9: every interval of a successfully parsed position list satisfies
`0 ≤ start` and `start < end`, for both historical parsers; the parsed list
is a pure value, so no later operation can change it. -/
theorem c9_interval_invariant (s : String) (l : List (Nat × Nat)) :
    (mylib_2.parse_pos s = .ok l ∨ mylib.parse_pos s = .ok l) →
      ∀ r ∈ l, 0 ≤ r.1 ∧ r.1 < r.2 := by
  intro h r hr
  refine ⟨Nat.zero_le _, ?_⟩
  rcases h with h | h
  · rw [mylib_2.parse_pos] at h
    obtain ⟨t, _, hft⟩ := traverseTokens_ok_mem h r hr
    have hx := parse_pos_token_exOpt t
    rw [hft] at hx
    exact tokenSpec_ok_lt hx.symm
  · rw [mylib.parse_pos] at h
    by_cases he : s.data.isEmpty = true
    · rw [if_pos he] at h
      cases h
    · rw [if_neg he] at h
      obtain ⟨t, _, hft⟩ := traverseTokens_ok_mem h r hr
      have hx := parse_token_exOpt t
      rw [hft] at hx
      exact tokenSpec_ok_lt hx.symm

/-- Witness for C9 at the concrete input "1-3". -/
theorem c9_interval_invariant_witness : (0 : Nat) ≤ 0 ∧ (0 : Nat) < 3 :=
  c9_interval_invariant "1-3" [(0, 3)] (Or.inl rfl) (0, 3) (by simp)

/-- C10: the two historical range parsers are equivalent up to error-message
text: on every input string either both fail, or both succeed with
identical position lists. -/
theorem c10_parsers_agree (s : String) :
    exOpt (mylib.parse_pos s) = exOpt (mylib_2.parse_pos s) := by
  rw [mylib.parse_pos, mylib_2.parse_pos]
  by_cases he : s.data.isEmpty = true
  · rw [if_pos he]
    have hd : s.data = [] := by
      cases hdata : s.data
      · rfl
      · rw [hdata] at he
        cases he
    rw [hd]
    rfl
  · rw [if_neg he]
    exact traverseTokens_congr
      (fun t => (parse_token_exOpt t).trans (parse_pos_token_exOpt t).symm) _
